import Mathlib

/-!
Verification of the MATLAB-to-npz conversion scripts
(`scripts/convert_pinknoise_to_npz.py` and `scripts/convert_expd_to_npz.py`).

The Python values handled by `flatten_value` are modelled by the mutual
inductive types `MVal` (a node of the loaded source record) and `NpArr`
(a numpy `ndarray`).  The `isinstance` dispatch of the Python code becomes
a match on the constructors:

  * `MVal.map`    — a `Mapping` (dict / simplified MATLAB struct);
  * `MVal.str`    — a Python `str` (which also satisfies `Sequence`; the
                    code checks `str` before the sequence branch);
  * `MVal.seq`    — a `Sequence` that is none of `bytes`, `bytearray`,
                    `np.ndarray`, `str` (the exact guard of the code);
  * `MVal.scalar` — a numeric Python scalar (modelled as `Int`);
  * `MVal.bytes`  — a raw byte buffer (`bytes` / `bytearray`);
  * `MVal.arr`    — an `np.ndarray`.

`NpArr.concrete` is an array of non-object dtype (shape, dtype string,
payload); `NpArr.objArr` is an object-dtype array given by its shape and
its list of elements (its `size` is the number of elements; `item()` on a
size-one object array returns the single element).
-/

inductive ArrData where
  | ints : List Int → ArrData
  | strDat : String → ArrData
  | bytesDat : List Nat → ArrData
deriving Repr

mutual
inductive MVal where
  | map : List (String × MVal) → MVal
  | str : String → MVal
  | seq : List MVal → MVal
  | scalar : Int → MVal
  | bytes : List Nat → MVal
  | arr : NpArr → MVal
deriving Repr

inductive NpArr where
  | concrete : List Nat → String → ArrData → NpArr
  | objArr : List Nat → List MVal → NpArr
deriving Repr
end

/-- The `shape` attribute of an ndarray. -/
def NpArr.shape : NpArr → List Nat
  | .concrete s _ _ => s
  | .objArr s _ => s

/-- `str(arr.dtype)`: object arrays print as `"object"`. -/
def NpArr.dtypeStr : NpArr → String
  | .concrete _ d _ => d
  | .objArr _ _ => "object"

/-- dtype of `np.asarray` applied to a Python `str` (`<U` + length,
with numpy using `<U1` for the empty string). -/
def strDtype (s : String) : String :=
  "<U" ++ toString (max 1 s.length)

/-- `np.asarray` on the value kinds that reach it inside `flatten_value`
(strings, numeric scalars, byte buffers, and arrays; mappings and
non-array sequences are dispatched before `asarray` is ever applied to
them, and are modelled as numpy models them, a zero-dim object box). -/
def asarray : MVal → NpArr
  | .str s => .concrete [] (strDtype s) (.strDat s)
  | .scalar n => .concrete [] "int64" (.ints [n])
  | .bytes bs => .concrete [] ("|S" ++ toString bs.length) (.bytesDat bs)
  | .arr a => a
  | .map m => .objArr [] [.map m]
  | .seq l => .objArr [] [.seq l]

/-- Shape/dtype record mirrored into `shapes` for every stored array. -/
structure ShapeInfo where
  shape : List Nat
  dtype : String
deriving Repr, DecidableEq

/-- The mutable state of a flattening run: the `flat` dict
(key → ndarray) and the `shapes` dict (key → shape/dtype), both
insertion-ordered as Python dicts are. -/
structure FlatSt where
  flat : List (String × NpArr)
  shapes : List (String × ShapeInfo)
deriving Repr

/-- Python `name in d`. -/
def dictContains (d : List (String × α)) (k : String) : Bool :=
  d.any (fun p => p.1 = k)

/-- Python `d[name] = v`: replaces in place if the key is present,
otherwise appends (insertion order preserved, as for a Python dict). -/
def dictInsert (d : List (String × α)) (k : String) (v : α) :
    List (String × α) :=
  match d with
  | [] => [(k, v)]
  | (k', v') :: rest =>
    if k' = k then (k, v) :: rest else (k', v') :: dictInsert rest k v

/-- Python `d.get(name)`. -/
def dictGet (d : List (String × α)) (k : String) : Option α :=
  match d with
  | [] => none
  | (k', v') :: rest => if k' = k then some v' else dictGet rest k

/-- `flat[name] = arr; shapes[name] = {"shape": arr.shape, "dtype": str(arr.dtype)}`. -/
def storeArr (name : String) (a : NpArr) (st : FlatSt) : FlatSt :=
  { flat := dictInsert st.flat name a,
    shapes := dictInsert st.shapes name ⟨a.shape, a.dtypeStr⟩ }

/-- The `ValueError` message of line 100 (the quotes around the key are
elided). -/
def dupMsg (name : String) : String :=
  "duplicate key " ++ name ++ " encountered while flattening data."

/-- The guarded terminal insert of `flatten_value` (lines 99–103):
`if name in flat: raise ValueError(...)` then store. -/
def finalStore (name : String) (a : NpArr) (st : FlatSt) :
    Except String FlatSt :=
  if dictContains st.flat name then
    .error (dupMsg name)
  else
    .ok (storeArr name a st)

mutual
/-- Shallow embedding of `flatten_value(name, value, flat, shapes)`
(`scripts/convert_pinknoise_to_npz.py`, lines 56–103).  The four
`isinstance` checks of the source, in source order, become the four
groups of cases below; exceptions become `Except.error`. -/
def flatten_value (name : String) (value : MVal) (st : FlatSt) :
    Except String FlatSt :=
  match value with
  | .map entries => flattenMap name entries st
  | .str s =>
    -- string branch (lines 69–73): stores with NO duplicate-key check
    .ok (storeArr name (asarray (.str s)) st)
  | .seq items => flattenSeq name 0 items st
  | .scalar n => finalStore name (asarray (.scalar n)) st
  | .bytes bs => finalStore name (asarray (.bytes bs)) st
  | .arr a =>
    -- `arr = np.asarray(value)` is `a` itself; lines 84–97 unwrap a
    -- size-one object array once
    match a with
    | .objArr _ [e] =>
      match e with
      | .map entries => flattenMap name entries st
      | .str s => finalStore name (asarray (.str s)) st
      | .seq items => flattenSeq name 0 items st
      | .scalar n => finalStore name (asarray (.scalar n)) st
      | .bytes bs => finalStore name (asarray (.bytes bs)) st
      | .arr a' => finalStore name a' st
    | a' => finalStore name a' st

/-- The mapping branch: `for sub_key, sub_val in value.items(): ...`. -/
def flattenMap (name : String) (entries : List (String × MVal))
    (st : FlatSt) : Except String FlatSt :=
  match entries with
  | [] => .ok st
  | (k, v) :: rest => do
    let st' ← flatten_value (if name = "" then k else name ++ "_" ++ k) v st
    flattenMap name rest st'

/-- The sequence branch: `for idx, item in enumerate(value): ...`. -/
def flattenSeq (name : String) (idx : Nat) (items : List MVal)
    (st : FlatSt) : Except String FlatSt :=
  match items with
  | [] => .ok st
  | item :: rest => do
    let st' ← flatten_value (name ++ "_" ++ toString idx) item st
    flattenSeq name (idx + 1) rest st'
end

/-- Python `key.startswith("__")`, written on the character list of the
key so that it evaluates by `rfl`. -/
def startsWithDunder (key : String) : Bool :=
  ['_', '_'].isPrefixOf key.toList

/-- The loop of `convert_file` over `raw.items()` (lines 121–124):
top-level keys beginning with `__` are skipped, the rest are flattened. -/
def flattenTop : List (String × MVal) → FlatSt → Except String FlatSt
  | [], st => .ok st
  | (key, v) :: rest, st =>
    if startsWithDunder key then flattenTop rest st
    else do flattenTop rest (← flatten_value key v st)

/-- The `RuntimeError` message of line 127. -/
def emptyMsg (inputPath : String) : String :=
  "No usable arrays were found in " ++ inputPath

/-- What a successful `convert_file` persists: the named arrays written
by `np.savez_compressed` and the `arrays` field of the JSON manifest. -/
structure ConvertOutput where
  npzEntries : List (String × NpArr)
  manifestArrays : List (String × ShapeInfo)
deriving Repr

/-- Shallow embedding of `convert_file(input_path, output_path,
metadata_path)` (`scripts/convert_pinknoise_to_npz.py`, lines 106–142).
`raw` is the mapping returned by `loadmat`; an `Except.error` result
models an exception raised before anything is written (both output
files are written only after the emptiness check). -/
def convert_file (inputPath : String) (raw : List (String × MVal)) :
    Except String ConvertOutput := do
  let st ← flattenTop raw ⟨[], []⟩
  if st.flat.isEmpty then
    .error (emptyMsg inputPath)
  else
    .ok ⟨st.flat, st.shapes⟩

/-- Index of the last occurrence of a dot in a list of characters. -/
def lastDotIdx : List Char → Option Nat
  | [] => none
  | c :: rest =>
    match lastDotIdx rest with
    | some i => some (i + 1)
    | none => if c = Char.ofNat 46 then some 0 else none

/-- Python `Path(name).stem`: the final component minus its last
dot-suffix, where a leading dot does not start a suffix. -/
def pathStem (name : String) : String :=
  match lastDotIdx name.toList with
  | some i => if 0 < i then ⟨name.toList.take i⟩ else name
  | none => name

/-- Outcome of a batch run of `convert_expd_to_npz.main`: the two
counters of lines 59–60 and the source files in the order the loop of
lines 61–73 visits them (the order of the per-file log lines). -/
structure BatchResult where
  converted : Nat
  skipped : Nat
  processed : List String
deriving Repr, DecidableEq

/-- Lexicographic comparison of two character lists by code point: the
order Python uses when comparing the name strings of paths in one
directory. -/
def listLexLe : List Char → List Char → Bool
  | [], _ => true
  | _ :: _, [] => false
  | c :: cs, d :: ds =>
    if c.toNat < d.toNat then true
    else if d.toNat < c.toNat then false
    else listLexLe cs ds

/-- `a <= b` on path strings. -/
def pathLe (a b : String) : Bool :=
  listLexLe a.toList b.toList

/-- `sorted(input_dir.glob(args.pattern))` (line 52): the matched paths
in lexicographic order. -/
def sortFiles (files : List String) : List String :=
  files.insertionSort (fun a b => pathLe a b = true)

/-- The skip test of line 66 for one source file: `--force` unset and
the destination `.npz` or `.json` already present. -/
def skipCond (destDir : String) (fsExists : String → Bool) (f : String) :
    Bool :=
  fsExists (destDir ++ "/" ++ pathStem f ++ ".npz") ||
  fsExists (destDir ++ "/" ++ pathStem f ++ ".json")

/-- The per-file loop of the batch driver (lines 61–73).  `fsExists`
models `Path.exists` on the destination paths and `records` gives the
mapping `loadmat` returns for each source file. -/
def batchLoop (destDir : String) (force : Bool) (fsExists : String → Bool)
    (records : String → List (String × MVal)) :
    List String → Nat → Nat → List String → Except String BatchResult
  | [], converted, skipped, processed => .ok ⟨converted, skipped, processed⟩
  | f :: rest, converted, skipped, processed =>
    if !force && skipCond destDir fsExists f then
      batchLoop destDir force fsExists records rest converted (skipped + 1)
        (processed ++ [f])
    else
      match convert_file f (records f) with
      | .error e => .error e
      | .ok _ =>
        batchLoop destDir force fsExists records rest (converted + 1) skipped
          (processed ++ [f])

/-- Shallow embedding of `main` of `scripts/convert_expd_to_npz.py`
(lines 46–75): `enumerated` is the list of paths matched by the glob in
whatever order the filesystem produced them; the driver sorts it, fails
on an empty match, then runs the per-file loop. -/
def batchMain (enumerated : List String) (destDir : String) (force : Bool)
    (fsExists : String → Bool)
    (records : String → List (String × MVal)) : Except String BatchResult :=
  let files := sortFiles enumerated
  if files.isEmpty then .error "No files matching pattern found"
  else batchLoop destDir force fsExists records files 0 0 []

/-- The shape/dtype record that `storeArr` mirrors into `shapes` for a
stored array. -/
def infoOf (a : NpArr) : ShapeInfo :=
  ⟨a.shape, a.dtypeStr⟩

/-- The `shapes` dict induced by a `flat` dict: same keys, each mapped
to the shape/dtype of its array. -/
def shapesOf (d : List (String × NpArr)) : List (String × ShapeInfo) :=
  d.map (fun p => (p.1, infoOf p.2))

/-- The manifest/archive consistency invariant of one flattening state. -/
def consistentSt (st : FlatSt) : Prop :=
  st.shapes = shapesOf st.flat

/-- The `value`s whose `flatten_value` call reaches the guarded terminal
insert of lines 99–103 (as opposed to recursing into a mapping or a
sequence, or taking the unguarded string branch of lines 69–73). -/
def reachesGuardedInsert : MVal → Bool
  | .scalar _ => true
  | .bytes _ => true
  | .arr (.objArr _ [e]) =>
    match e with
    | .map _ => false
    | .seq _ => false
    | _ => true
  | .arr _ => true
  | _ => false

/-- Elements of a boxed singleton that hit the final `else` of lines
96–97: neither a mapping, nor a string, nor a non-array sequence. -/
def isUnwrapTerminal : MVal → Bool
  | .scalar _ => true
  | .bytes _ => true
  | .arr _ => true
  | _ => false

/-- Test filesystem for the batch witnesses: only `dest/b.npz` exists. -/
def fsOnlyB : String → Bool :=
  fun q => q == "dest/b.npz"

/-- Test filesystem for the batch witnesses: nothing exists yet. -/
def fsNone : String → Bool :=
  fun _ => false

/-- Test loader for the batch witnesses: every source file holds the
single scalar entry `k`. -/
def recScalarK : String → List (String × MVal) :=
  fun _ => [("k", MVal.scalar 0)]

/-- Sequentially flatten a list of already-indexed elements, each under
its `name + "_" + index` key. -/
def flattenAt (name : String) :
    List (Nat × MVal) → FlatSt → Except String FlatSt
  | [], st => .ok st
  | (i, item) :: rest, st => do
    flattenAt name rest (← flatten_value (name ++ "_" ++ toString i) item st)

/-- Modelled from the spec (§4.1 rule 3), for comparison with the code:
recurse into each element of the sequence with key
`name + "_" + index`, indices zero-based. -/
def seqFlattenSpec (name : String) (items : List MVal) (st : FlatSt) :
    Except String FlatSt :=
  flattenAt name items.enum st

/-! ### Helper lemmas -/

theorem exceptBind_ok {α β : Type} {x : Except String α}
    {f : α → Except String β} {b : β} (h : (x >>= f) = .ok b) :
    ∃ a, x = .ok a ∧ f a = .ok b := by
  cases x with
  | error e => exact absurd h (by simp [bind, Except.bind])
  | ok a => exact ⟨a, rfl, by simpa only [bind, Except.bind] using h⟩

theorem map_dictInsert (g : NpArr → ShapeInfo) (d : List (String × NpArr))
    (k : String) (a : NpArr) :
    (dictInsert d k a).map (fun p => (p.1, g p.2)) =
      dictInsert (d.map (fun p => (p.1, g p.2))) k (g a) := by
  induction d with
  | nil => rfl
  | cons p rest ih =>
    obtain ⟨k', v'⟩ := p
    by_cases h : k' = k <;> simp [dictInsert, h, ih]

theorem shapesOf_dictInsert (d : List (String × NpArr)) (k : String)
    (a : NpArr) :
    shapesOf (dictInsert d k a) = dictInsert (shapesOf d) k (infoOf a) :=
  map_dictInsert infoOf d k a

theorem storeArr_consistent (name : String) (a : NpArr) (st : FlatSt)
    (h : consistentSt st) : consistentSt (storeArr name a st) := by
  unfold consistentSt at h ⊢
  show dictInsert st.shapes name ⟨a.shape, a.dtypeStr⟩ =
    shapesOf (dictInsert st.flat name a)
  rw [shapesOf_dictInsert, ← h]
  rfl

theorem finalStore_consistent {name : String} {a : NpArr} {st st' : FlatSt}
    (hr : finalStore name a st = .ok st') (h : consistentSt st) :
    consistentSt st' := by
  unfold finalStore at hr
  split at hr
  · exact absurd hr (by simp)
  · rw [Except.ok.injEq] at hr
    exact hr ▸ storeArr_consistent name a st h

theorem flatten_consistent_all :
    (∀ (name : String) (value : MVal) (st : FlatSt), ∀ st' : FlatSt,
        flatten_value name value st = .ok st' →
        consistentSt st → consistentSt st') ∧
    (∀ (name : String) (idx : Nat) (items : List MVal) (st : FlatSt),
        ∀ st' : FlatSt,
        flattenSeq name idx items st = .ok st' →
        consistentSt st → consistentSt st') ∧
    (∀ (name : String) (entries : List (String × MVal)) (st : FlatSt),
        ∀ st' : FlatSt,
        flattenMap name entries st = .ok st' →
        consistentSt st → consistentSt st') := by
  apply flatten_value.mutual_induct
  case case1 =>
    intro name st a ih st' hr hc
    exact ih st' hr hc
  case case2 =>
    intro name st a st' hr hc
    have hr' : Except.ok (storeArr name (asarray (.str a)) st) =
        Except.ok st' := hr
    rw [Except.ok.injEq] at hr'
    exact hr' ▸ storeArr_consistent name (asarray (.str a)) st hc
  case case3 =>
    intro name st a ih st' hr hc
    exact ih st' hr hc
  case case4 =>
    intro name st a st' hr hc
    exact finalStore_consistent hr hc
  case case5 =>
    intro name st a st' hr hc
    exact finalStore_consistent hr hc
  case case6 =>
    intro name st shp a ih st' hr hc
    exact ih st' hr hc
  case case7 =>
    intro name st shp a st' hr hc
    exact finalStore_consistent hr hc
  case case8 =>
    intro name st shp a ih st' hr hc
    exact ih st' hr hc
  case case9 =>
    intro name st shp a st' hr hc
    exact finalStore_consistent hr hc
  case case10 =>
    intro name st shp a st' hr hc
    exact finalStore_consistent hr hc
  case case11 =>
    intro name st shp a st' hr hc
    exact finalStore_consistent hr hc
  case case12 =>
    intro name st a' hne st' hr hc
    cases a' with
    | concrete s d dat => exact finalStore_consistent hr hc
    | objArr s es =>
      cases es with
      | nil => exact finalStore_consistent hr hc
      | cons e tail =>
        cases tail with
        | nil => exact (hne s e rfl).elim
        | cons e2 t2 => exact finalStore_consistent hr hc
  case case13 =>
    intro name st st' hr hc
    have hr' : Except.ok st = Except.ok st' := hr
    rw [Except.ok.injEq] at hr'
    exact hr' ▸ hc
  case case14 =>
    intro name st k v rest ih1 ih2 st' hr hc
    obtain ⟨st1, h1, h2⟩ := exceptBind_ok
      (show (flatten_value (if name = "" then k else name ++ "_" ++ k) v st >>=
        fun s => flattenMap name rest s) = .ok st' from hr)
    exact ih2 st1 st' h2 (ih1 st1 h1 hc)
  case case15 =>
    intro name idx st st' hr hc
    have hr' : Except.ok st = Except.ok st' := hr
    rw [Except.ok.injEq] at hr'
    exact hr' ▸ hc
  case case16 =>
    intro name idx st item rest ih1 ih2 st' hr hc
    obtain ⟨st1, h1, h2⟩ := exceptBind_ok
      (show (flatten_value (name ++ "_" ++ toString idx) item st >>=
        fun s => flattenSeq name (idx + 1) rest s) = .ok st' from hr)
    exact ih2 st1 st' h2 (ih1 st1 h1 hc)

theorem flattenTop_consistent :
    ∀ (raw : List (String × MVal)) (st st' : FlatSt),
      flattenTop raw st = .ok st' → consistentSt st → consistentSt st' := by
  intro raw
  induction raw with
  | nil =>
    intro st st' hr hc
    have hr' : Except.ok st = Except.ok st' := hr
    rw [Except.ok.injEq] at hr'
    exact hr' ▸ hc
  | cons p rest ih =>
    intro st st' hr hc
    obtain ⟨k, v⟩ := p
    by_cases hk : startsWithDunder k
    · rw [flattenTop, if_pos hk] at hr
      exact ih st st' hr hc
    · rw [flattenTop, if_neg hk] at hr
      obtain ⟨st1, h1, h2⟩ := exceptBind_ok hr
      exact ih st1 st' h2 (flatten_consistent_all.1 k v st st1 h1 hc)

theorem shapesOf_keys (d : List (String × NpArr)) :
    (shapesOf d).map Prod.fst = d.map Prod.fst := by
  simp [shapesOf]

theorem dictGet_shapesOf (d : List (String × NpArr)) (k : String) :
    dictGet (shapesOf d) k = (dictGet d k).map infoOf := by
  induction d with
  | nil => rfl
  | cons p rest ih =>
    obtain ⟨k', v'⟩ := p
    by_cases h : k' = k
    · simp [dictGet, shapesOf, h]
    · simp only [dictGet, shapesOf, h, List.map_cons, if_neg]
      simpa [shapesOf] using ih

/-! ### Claim theorems -/

/-- C4: after every successful `flatten_value` call starting from a
consistent state (and in particular for the `flat`/`shapes` pair a
completed `convert_file` run persists as archive and manifest), the
shape/dtype dict and the flat dict have exactly the same key sequence and
the recorded shape and dtype of every key equal the shape and dtype of
the array stored under that key. -/
theorem flatten_manifest_archive_consistent :
    (∀ (name : String) (value : MVal) (st st' : FlatSt),
        flatten_value name value st = .ok st' → consistentSt st →
        consistentSt st' ∧
        st'.shapes.map Prod.fst = st'.flat.map Prod.fst ∧
        (∀ k a, dictGet st'.flat k = some a →
          dictGet st'.shapes k = some (infoOf a))) ∧
    (∀ (inputPath : String) (raw : List (String × MVal))
        (out : ConvertOutput),
        convert_file inputPath raw = .ok out →
        out.manifestArrays = shapesOf out.npzEntries ∧
        out.manifestArrays.map Prod.fst = out.npzEntries.map Prod.fst ∧
        (∀ k a, dictGet out.npzEntries k = some a →
          dictGet out.manifestArrays k = some (infoOf a))) := by
  constructor
  · intro name value st st' hr hc
    have hc' : consistentSt st' := flatten_consistent_all.1 name value st st' hr hc
    refine ⟨hc', ?_, ?_⟩
    · rw [hc', shapesOf_keys]
    · intro k a hget
      rw [hc', dictGet_shapesOf, hget]
      rfl
  · intro inputPath raw out hr
    obtain ⟨st1, h1, h2⟩ := exceptBind_ok
      (show (flattenTop raw ⟨[], []⟩ >>= fun st =>
        if st.flat.isEmpty then Except.error (emptyMsg inputPath)
        else Except.ok (⟨st.flat, st.shapes⟩ : ConvertOutput)) = .ok out from hr)
    have hc1 : consistentSt st1 := flattenTop_consistent raw ⟨[], []⟩ st1 h1 rfl
    have hout : out = ⟨st1.flat, st1.shapes⟩ := by
      by_cases he : st1.flat.isEmpty
      · rw [if_pos he] at h2
        exact absurd h2 (by simp)
      · rw [if_neg he] at h2
        have h2' : (⟨st1.flat, st1.shapes⟩ : ConvertOutput) = out := by
          rw [← Except.ok.injEq]
          exact h2
        exact h2'.symm
    subst hout
    refine ⟨hc1, ?_, ?_⟩
    · show st1.shapes.map Prod.fst = st1.flat.map Prod.fst
      rw [hc1, shapesOf_keys]
    · intro k a hget
      show dictGet st1.shapes k = some (infoOf a)
      rw [hc1, dictGet_shapesOf, hget]
      rfl

/-- Witness for C4 at a concrete input: flattening the scalar `5` under
key `k` from the empty state yields a state whose `shapes` dict mirrors
its `flat` dict, and converting the record `{k: 5}` yields an archive
and manifest with identical keys and matching shape/dtype. -/
theorem flatten_manifest_archive_consistent_witness :
    (consistentSt ⟨[("k", NpArr.concrete [] "int64" (.ints [5]))],
        [("k", ⟨[], "int64"⟩)]⟩ ∧
      [("k", (⟨[], "int64"⟩ : ShapeInfo))].map Prod.fst =
        [("k", NpArr.concrete [] "int64" (ArrData.ints [5]))].map Prod.fst ∧
      (∀ k a,
        dictGet [("k", NpArr.concrete [] "int64" (ArrData.ints [5]))] k =
          some a →
        dictGet [("k", (⟨[], "int64"⟩ : ShapeInfo))] k = some (infoOf a))) ∧
    ((⟨[("k", NpArr.concrete [] "int64" (ArrData.ints [5]))],
        [("k", ⟨[], "int64"⟩)]⟩ : ConvertOutput).manifestArrays =
      shapesOf [("k", NpArr.concrete [] "int64" (ArrData.ints [5]))] ∧
      ((⟨[("k", NpArr.concrete [] "int64" (ArrData.ints [5]))],
        [("k", ⟨[], "int64"⟩)]⟩ : ConvertOutput).manifestArrays).map Prod.fst =
        [("k", NpArr.concrete [] "int64" (ArrData.ints [5]))].map Prod.fst ∧
      (∀ k a,
        dictGet [("k", NpArr.concrete [] "int64" (ArrData.ints [5]))] k =
          some a →
        dictGet [("k", (⟨[], "int64"⟩ : ShapeInfo))] k = some (infoOf a))) :=
  ⟨flatten_manifest_archive_consistent.1 "k" (.scalar 5) ⟨[], []⟩
      ⟨[("k", NpArr.concrete [] "int64" (.ints [5]))], [("k", ⟨[], "int64"⟩)]⟩
      rfl rfl,
    flatten_manifest_archive_consistent.2 "in.mat" [("k", .scalar 5)]
      ⟨[("k", NpArr.concrete [] "int64" (.ints [5]))], [("k", ⟨[], "int64"⟩)]⟩
      rfl⟩

/-- C1 counterexample: in the record
`{"a_b": "x", "a": {"b": "y"}}` the two distinct source paths `a_b` and
`a.b` resolve to the same flat key `a_b`, the second terminal value is a
plain string, and flattening succeeds — the string branch of
`flatten_value` (lines 69–73) silently overwrites the earlier entry
instead of failing with a duplicate-key condition. -/
theorem flatten_string_dup_no_error :
    flatten_value ""
        (.map [("a_b", .str "x"), ("a", .map [("b", .str "y")])])
        ⟨[], []⟩ =
      .ok ⟨[("a_b", asarray (.str "y"))], [("a_b", ⟨[], "<U1"⟩)]⟩ := rfl

/-- C1 (amended): whenever the flat key already exists and the terminal
value goes through the guarded insert of lines 99–103 — a numeric
scalar, a byte buffer, an ndarray, or a boxed singleton unwrapping to a
string, scalar, byte buffer or ndarray — `flatten_value` fails with the
duplicate-key `ValueError`, and an error raised during flattening
propagates out of `convert_file` before any output is produced.
Terminal values hitting the plain-string branch of lines 69–73 are the
exception: they overwrite silently (see the counterexample). -/
theorem flatten_dup_key_guarded :
    (∀ (name : String) (value : MVal) (st : FlatSt),
        reachesGuardedInsert value = true →
        dictContains st.flat name = true →
        flatten_value name value st = .error (dupMsg name)) ∧
    (∀ (inputPath : String) (raw : List (String × MVal)) (e : String),
        flattenTop raw ⟨[], []⟩ = .error e →
        convert_file inputPath raw = .error e) := by
  constructor
  · intro name value st hg hc
    cases value with
    | map entries => exact absurd hg (by simp [reachesGuardedInsert])
    | str s => exact absurd hg (by simp [reachesGuardedInsert])
    | seq items => exact absurd hg (by simp [reachesGuardedInsert])
    | scalar n =>
      show finalStore name (asarray (.scalar n)) st = .error (dupMsg name)
      rw [finalStore, if_pos hc]
    | bytes bs =>
      show finalStore name (asarray (.bytes bs)) st = .error (dupMsg name)
      rw [finalStore, if_pos hc]
    | arr a =>
      cases a with
      | concrete s d dat =>
        show finalStore name (NpArr.concrete s d dat) st = .error (dupMsg name)
        rw [finalStore, if_pos hc]
      | objArr s es =>
        match es with
        | [] =>
          show finalStore name (NpArr.objArr s []) st = .error (dupMsg name)
          rw [finalStore, if_pos hc]
        | [e] =>
          cases e with
          | map entries => exact absurd hg (by simp [reachesGuardedInsert])
          | str s2 =>
            show finalStore name (asarray (.str s2)) st = .error (dupMsg name)
            rw [finalStore, if_pos hc]
          | seq items => exact absurd hg (by simp [reachesGuardedInsert])
          | scalar n =>
            show finalStore name (asarray (.scalar n)) st = .error (dupMsg name)
            rw [finalStore, if_pos hc]
          | bytes bs =>
            show finalStore name (asarray (.bytes bs)) st = .error (dupMsg name)
            rw [finalStore, if_pos hc]
          | arr a' =>
            show finalStore name a' st = .error (dupMsg name)
            rw [finalStore, if_pos hc]
        | e1 :: e2 :: t =>
          show finalStore name (NpArr.objArr s (e1 :: e2 :: t)) st =
            .error (dupMsg name)
          rw [finalStore, if_pos hc]
  · intro inputPath raw e h
    show (flattenTop raw ⟨[], []⟩ >>= fun st =>
      if st.flat.isEmpty then Except.error (emptyMsg inputPath)
      else Except.ok (⟨st.flat, st.shapes⟩ : ConvertOutput)) = .error e
    rw [h]
    rfl

/-- Witness for the amended C1: a scalar inserted under the
already-present key `k` makes `flatten_value` fail with the
duplicate-key error, and a record whose two top-level paths `k.x` and
`k_x` collide on a scalar makes `convert_file` abort with that same
error. -/
theorem flatten_dup_key_guarded_witness :
    flatten_value "k" (.scalar 7)
        ⟨[("k", NpArr.concrete [] "int64" (.ints [1]))],
          [("k", ⟨[], "int64"⟩)]⟩ =
      .error (dupMsg "k") ∧
    convert_file "in.mat" [("k", .map [("x", .scalar 1)]), ("k_x", .scalar 2)] =
      .error (dupMsg "k_x") :=
  ⟨flatten_dup_key_guarded.1 "k" (.scalar 7)
      ⟨[("k", NpArr.concrete [] "int64" (.ints [1]))], [("k", ⟨[], "int64"⟩)]⟩
      rfl rfl,
    flatten_dup_key_guarded.2 "in.mat"
      [("k", .map [("x", .scalar 1)]), ("k_x", .scalar 2)] (dupMsg "k_x") rfl⟩

/-- C2: a string value is handled by the dedicated string branch (which
the code checks before the generic sequence branch, so a string — though
an ordered sequence of characters in Python — is never recursed into
element-wise): it is stored directly under `name` as a zero-dimensional
string-typed array, leaving every other key untouched. -/
theorem flatten_string_direct :
    ∀ (name s : String) (st : FlatSt),
      flatten_value name (.str s) st =
        .ok (storeArr name (asarray (.str s)) st) ∧
      (asarray (.str s)).shape = [] ∧
      (asarray (.str s)).dtypeStr = strDtype s :=
  fun _ _ _ => ⟨rfl, rfl, rfl⟩

/-- C3: a one-element object-dtype container wrapping a nested mapping
flattens under `name` exactly as the mapping itself would: line 87 of
the source re-dispatches the unwrapped element under the same `name`,
so no index suffix is introduced. -/
theorem objbox_map_unwrap :
    ∀ (name : String) (shp : List Nat) (entries : List (String × MVal))
      (st : FlatSt),
      flatten_value name (.arr (.objArr shp [.map entries])) st =
        flatten_value name (.map entries) st :=
  fun _ _ _ _ => rfl

theorem flattenSeq_eq_flattenAt :
    ∀ (items : List MVal) (name : String) (idx : Nat) (st : FlatSt),
      flattenSeq name idx items st =
        flattenAt name (List.enumFrom idx items) st := by
  intro items
  induction items with
  | nil => intro name idx st; rfl
  | cons item rest ih =>
    intro name idx st
    show (flatten_value (name ++ "_" ++ toString idx) item st >>= fun s =>
        flattenSeq name (idx + 1) rest s) =
      (flatten_value (name ++ "_" ++ toString idx) item st >>= fun s =>
        flattenAt name (List.enumFrom (idx + 1) rest) s)
    cases flatten_value (name ++ "_" ++ toString idx) item st with
    | error e => rfl
    | ok st1 => exact ih name (idx + 1) st1

/-- C5: the sequence branch of `flatten_value` recurses into each
element with the flat key `name + "_" + index`, indices zero-based
(stated as equality with `seqFlattenSpec`, the direct transcription of
the spec rule); in particular an ordered list of three scalars under
key `x` produces exactly the flat keys `x_0`, `x_1`, `x_2`. -/
theorem seq_flatten_indexed_keys :
    (∀ (name : String) (items : List MVal) (st : FlatSt),
        flatten_value name (.seq items) st = seqFlattenSpec name items st) ∧
    (∀ a b c : Int,
        flatten_value "x" (.seq [.scalar a, .scalar b, .scalar c]) ⟨[], []⟩ =
          .ok ⟨[("x_0", asarray (.scalar a)), ("x_1", asarray (.scalar b)),
                ("x_2", asarray (.scalar c))],
               [("x_0", ⟨[], "int64"⟩), ("x_1", ⟨[], "int64"⟩),
                ("x_2", ⟨[], "int64"⟩)]⟩) := by
  constructor
  · intro name items st
    exact flattenSeq_eq_flattenAt items name 0 st
  · intro a b c
    rfl

theorem flattenTop_all_private :
    ∀ (raw : List (String × MVal)) (st : FlatSt),
      (∀ p ∈ raw, startsWithDunder p.1 = true) →
      flattenTop raw st = .ok st := by
  intro raw
  induction raw with
  | nil => intro st h; rfl
  | cons p rest ih =>
    intro st h
    obtain ⟨k, v⟩ := p
    have hk : startsWithDunder k = true := h (k, v) (List.mem_cons_self _ _)
    rw [show flattenTop ((k, v) :: rest) st =
        (if startsWithDunder k then flattenTop rest st
          else do flattenTop rest (← flatten_value k v st)) from rfl,
      if_pos hk]
    exact ih st (fun q hq => h q (List.mem_cons_of_mem _ hq))

/-- C6: a source record whose top-level keys are all double-underscore
prefixed produces an empty flat mapping, and any run whose flattened
mapping comes out empty makes `convert_file` fail with the
empty-result `RuntimeError` — no archive and no manifest are produced. -/
theorem private_keys_empty_result :
    (∀ (inputPath : String) (raw : List (String × MVal)),
        (∀ p ∈ raw, startsWithDunder p.1 = true) →
        convert_file inputPath raw = .error (emptyMsg inputPath)) ∧
    (∀ (inputPath : String) (raw : List (String × MVal)) (st : FlatSt),
        flattenTop raw ⟨[], []⟩ = .ok st → st.flat = [] →
        convert_file inputPath raw = .error (emptyMsg inputPath)) := by
  constructor
  · intro inputPath raw h
    have h1 : flattenTop raw ⟨[], []⟩ = .ok ⟨[], []⟩ :=
      flattenTop_all_private raw ⟨[], []⟩ h
    show (flattenTop raw ⟨[], []⟩ >>= fun st =>
      if st.flat.isEmpty then Except.error (emptyMsg inputPath)
      else Except.ok (⟨st.flat, st.shapes⟩ : ConvertOutput)) =
        .error (emptyMsg inputPath)
    rw [h1]
    rfl
  · intro inputPath raw st h1 h2
    show (flattenTop raw ⟨[], []⟩ >>= fun st =>
      if st.flat.isEmpty then Except.error (emptyMsg inputPath)
      else Except.ok (⟨st.flat, st.shapes⟩ : ConvertOutput)) =
        .error (emptyMsg inputPath)
    rw [h1]
    show (if st.flat.isEmpty then Except.error (emptyMsg inputPath)
      else Except.ok (⟨st.flat, st.shapes⟩ : ConvertOutput)) =
        .error (emptyMsg inputPath)
    rw [h2]
    rfl

/-- Witness for C6: a record with only reserved keys, and the empty
record, both abort single-file conversion with the empty-result error. -/
theorem private_keys_empty_result_witness :
    convert_file "in.mat" [("__header", .str "h"), ("__version", .scalar 1)] =
      .error (emptyMsg "in.mat") ∧
    convert_file "empty.mat" [] = .error (emptyMsg "empty.mat") :=
  ⟨private_keys_empty_result.1 "in.mat"
      [("__header", .str "h"), ("__version", .scalar 1)] (by decide),
    private_keys_empty_result.2 "empty.mat" [] ⟨[], []⟩ rfl rfl⟩

/-- C9: flattening is deterministic — two runs of `flatten_value` on the
same value from equal states give equal results, and two calls of
`convert_file` on the same record give equal results. -/
theorem flatten_deterministic :
    (∀ (name : String) (value : MVal) (st₁ st₂ : FlatSt), st₁ = st₂ →
        flatten_value name value st₁ = flatten_value name value st₂) ∧
    (∀ (inputPath : String) (raw : List (String × MVal)),
        convert_file inputPath raw = convert_file inputPath raw) :=
  ⟨fun _ _ _ _ h => by rw [h], fun _ _ => rfl⟩

/-- Witness for C9 at a concrete input. -/
theorem flatten_deterministic_witness :
    flatten_value "k" (.scalar 3) ⟨[], []⟩ =
      flatten_value "k" (.scalar 3) ⟨[], []⟩ :=
  flatten_deterministic.1 "k" (.scalar 3) ⟨[], []⟩ ⟨[], []⟩ rfl

/-- C10: the boxed-singleton unwrap of lines 84–97 happens at most once
per call — when the single element is neither a mapping, a string, nor
a non-array sequence, it is converted by `asarray` and goes straight to
the guarded terminal insert; in particular another one-element
object-dtype container inside the box is stored as-is (dtype `object`),
not unwrapped a second time. -/
theorem objbox_unwrap_once :
    (∀ (name : String) (shp : List Nat) (e : MVal) (st : FlatSt),
        isUnwrapTerminal e = true →
        flatten_value name (.arr (.objArr shp [e])) st =
          finalStore name (asarray e) st) ∧
    (∀ (name : String) (shp shp2 : List Nat) (e2 : MVal) (st : FlatSt),
        dictContains st.flat name = false →
        flatten_value name (.arr (.objArr shp [.arr (.objArr shp2 [e2])])) st =
          .ok (storeArr name (.objArr shp2 [e2]) st)) := by
  constructor
  · intro name shp e st he
    cases e with
    | map entries => exact absurd he (by simp [isUnwrapTerminal])
    | str s => exact absurd he (by simp [isUnwrapTerminal])
    | seq items => exact absurd he (by simp [isUnwrapTerminal])
    | scalar n => rfl
    | bytes bs => rfl
    | arr a' => rfl
  · intro name shp shp2 e2 st hc
    show finalStore name (NpArr.objArr shp2 [e2]) st =
      .ok (storeArr name (.objArr shp2 [e2]) st)
    unfold finalStore
    simp [hc]

/-- Witness for C10: a doubly-boxed scalar under key `k` stores the
inner one-element object container itself (shape `[1]`, dtype
`object`), and a singly-boxed scalar reaches the guarded insert. -/
theorem objbox_unwrap_once_witness :
    flatten_value "k" (.arr (.objArr [1] [.arr (.objArr [1] [.scalar 7])]))
        ⟨[], []⟩ =
      .ok ⟨[("k", NpArr.objArr [1] [.scalar 7])], [("k", ⟨[1], "object"⟩)]⟩ ∧
    flatten_value "k" (.arr (.objArr [] [.scalar 7])) ⟨[], []⟩ =
      finalStore "k" (asarray (.scalar 7)) ⟨[], []⟩ :=
  ⟨objbox_unwrap_once.2 "k" [1] [1] (.scalar 7) ⟨[], []⟩ rfl,
    objbox_unwrap_once.1 "k" [] (.scalar 7) ⟨[], []⟩ rfl⟩

theorem listLexLe_total :
    ∀ as bs : List Char, listLexLe as bs = true ∨ listLexLe bs as = true := by
  intro as
  induction as with
  | nil => intro bs; left; rfl
  | cons c cs ih =>
    intro bs
    cases bs with
    | nil => right; rfl
    | cons d ds =>
      by_cases h1 : c.toNat < d.toNat
      · left; simp [listLexLe, h1]
      · by_cases h2 : d.toNat < c.toNat
        · right; simp [listLexLe, h2]
        · rcases ih ds with h | h
          · left; simp [listLexLe, h1, h2, h]
          · right; simp [listLexLe, h1, h2, h]

theorem listLexLe_trans :
    ∀ as bs cs : List Char, listLexLe as bs = true →
      listLexLe bs cs = true → listLexLe as cs = true := by
  intro as
  induction as with
  | nil => intro bs cs h1 h2; rfl
  | cons a as1 ih =>
    intro bs cs h1 h2
    cases bs with
    | nil => exact absurd h1 (by simp [listLexLe])
    | cons b bs1 =>
      cases cs with
      | nil => exact absurd h2 (by simp [listLexLe])
      | cons c1 cs1 =>
        simp only [listLexLe] at h1 h2 ⊢
        by_cases hab : a.toNat < b.toNat
        · by_cases hbc : b.toNat < c1.toNat
          · have hac : a.toNat < c1.toNat := Nat.lt_trans hab hbc
            simp [hac]
          · by_cases hcb : c1.toNat < b.toNat
            · rw [if_neg hbc, if_pos hcb] at h2
              exact absurd h2 (by simp)
            · have hac : a.toNat < c1.toNat := by omega
              simp [hac]
        · by_cases hba : b.toNat < a.toNat
          · rw [if_neg hab, if_pos hba] at h1
            exact absurd h1 (by simp)
          · rw [if_neg hab, if_neg hba] at h1
            by_cases hbc : b.toNat < c1.toNat
            · have hac : a.toNat < c1.toNat := by omega
              simp [hac]
            · by_cases hcb : c1.toNat < b.toNat
              · rw [if_neg hbc, if_pos hcb] at h2
                exact absurd h2 (by simp)
              · rw [if_neg hbc, if_neg hcb] at h2
                rw [if_neg (show ¬ a.toNat < c1.toNat by omega),
                  if_neg (show ¬ c1.toNat < a.toNat by omega)]
                exact ih bs1 cs1 h1 h2

theorem listLexLe_antisymm :
    ∀ as bs : List Char, listLexLe as bs = true →
      listLexLe bs as = true → as = bs := by
  intro as
  induction as with
  | nil =>
    intro bs h1 h2
    cases bs with
    | nil => rfl
    | cons d ds => exact absurd h2 (by simp [listLexLe])
  | cons a as1 ih =>
    intro bs h1 h2
    cases bs with
    | nil => exact absurd h1 (by simp [listLexLe])
    | cons b bs1 =>
      simp only [listLexLe] at h1 h2
      by_cases hab : a.toNat < b.toNat
      · rw [if_neg (show ¬ b.toNat < a.toNat by omega), if_pos hab] at h2
        exact absurd h2 (by simp)
      · by_cases hba : b.toNat < a.toNat
        · rw [if_neg hab, if_pos hba] at h1
          exact absurd h1 (by simp)
        · have hn : a.toNat = b.toNat := by omega
          have hc : a = b := Char.ext (UInt32.ext hn)
          rw [if_neg hab, if_neg hba] at h1
          rw [if_neg hba, if_neg hab] at h2
          rw [hc, ih bs1 h1 h2]

theorem pathLe_antisymm (a b : String) (h1 : pathLe a b = true)
    (h2 : pathLe b a = true) : a = b := by
  have h := listLexLe_antisymm a.toList b.toList h1 h2
  exact congrArg String.mk h

theorem sortFiles_sorted (l : List String) :
    (sortFiles l).Sorted (fun a b => pathLe a b = true) :=
  @List.sorted_insertionSort String (fun a b => pathLe a b = true) _
    ⟨fun a b => listLexLe_total a.toList b.toList⟩
    ⟨fun a b c h1 h2 => listLexLe_trans a.toList b.toList c.toList h1 h2⟩ l

theorem sortFiles_perm (l : List String) : (sortFiles l).Perm l :=
  List.perm_insertionSort (fun a b => pathLe a b = true) l

theorem filter_length_split (p : String → Bool) (l : List String) :
    (l.filter (fun f => !p f)).length + (l.filter p).length = l.length := by
  induction l with
  | nil => rfl
  | cons f rest ih =>
    by_cases h : p f = true
    · simp [List.filter_cons, h]
      omega
    · have h' : p f = false := by simpa using h
      simp [List.filter_cons, h']
      omega

theorem batchLoop_spec :
    ∀ (files : List String) (destDir : String) (fsExists : String → Bool)
      (records : String → List (String × MVal)) (c s : Nat) (p : List String),
      (∀ f ∈ files, skipCond destDir fsExists f = false →
          ∃ out, convert_file f (records f) = .ok out) →
      batchLoop destDir false fsExists records files c s p =
        .ok ⟨c + (files.filter (fun f => !skipCond destDir fsExists f)).length,
             s + (files.filter (fun f => skipCond destDir fsExists f)).length,
             p ++ files⟩ := by
  intro files destDir fsExists records
  induction files with
  | nil => intro c s p h; simp [batchLoop]
  | cons f rest ih =>
    intro c s p h
    simp only [batchLoop, Bool.not_false, Bool.true_and]
    by_cases hs : skipCond destDir fsExists f = true
    · rw [if_pos hs]
      rw [ih c (s + 1) (p ++ [f])
        (fun q hq hsk => h q (List.mem_cons_of_mem _ hq) hsk)]
      simp only [List.filter_cons, hs, Bool.not_true, Bool.false_eq_true,
        if_false, if_true, List.length_cons, List.append_assoc,
        List.singleton_append]
      rw [Except.ok.injEq, BatchResult.mk.injEq]
      exact ⟨rfl, by omega, rfl⟩
    · rw [if_neg hs]
      have hs' : skipCond destDir fsExists f = false := by simpa using hs
      obtain ⟨out, hout⟩ := h f (List.mem_cons_self _ _) hs'
      rw [hout]
      rw [ih (c + 1) s (p ++ [f])
        (fun q hq hsk => h q (List.mem_cons_of_mem _ hq) hsk)]
      simp only [List.filter_cons, hs', Bool.not_false, Bool.true_eq_false,
        if_false, if_true, List.length_cons, List.append_assoc,
        List.singleton_append]
      rw [Except.ok.injEq, BatchResult.mk.injEq]
      exact ⟨by omega, rfl, rfl⟩

/-- C7: with `--force` unset, a batch run across the matched files skips
exactly those whose destination `.npz` or `.json` already exists, and
converts all others (provided those conversions succeed), with
`converted + skipped` equal to the number of matched files. -/
theorem batch_skip_accounting :
    ∀ (enumerated : List String) (destDir : String)
      (fsExists : String → Bool) (records : String → List (String × MVal)),
      sortFiles enumerated ≠ [] →
      (∀ f ∈ sortFiles enumerated, skipCond destDir fsExists f = false →
          ∃ out, convert_file f (records f) = .ok out) →
      batchMain enumerated destDir false fsExists records =
        .ok ⟨((sortFiles enumerated).filter
                (fun f => !skipCond destDir fsExists f)).length,
             ((sortFiles enumerated).filter
                (fun f => skipCond destDir fsExists f)).length,
             sortFiles enumerated⟩ ∧
      ((sortFiles enumerated).filter
          (fun f => !skipCond destDir fsExists f)).length +
        ((sortFiles enumerated).filter
          (fun f => skipCond destDir fsExists f)).length =
        (sortFiles enumerated).length := by
  intro enumerated destDir fsExists records hne h
  have hee : (sortFiles enumerated).isEmpty = false := by
    cases hl : sortFiles enumerated with
    | nil => exact absurd hl hne
    | cons a l => rfl
  constructor
  · show (if (sortFiles enumerated).isEmpty then
        (Except.error "No files matching pattern found" :
          Except String BatchResult)
      else batchLoop destDir false fsExists records
        (sortFiles enumerated) 0 0 []) = _
    rw [hee]
    simp only [Bool.false_eq_true, if_false]
    rw [batchLoop_spec (sortFiles enumerated) destDir fsExists records 0 0 [] h]
    simp
  · exact filter_length_split _ _

/-- Witness for C7: three matched files `a.mat`, `b.mat`, `c.mat` where
only `b.mat` already has its `.npz` output present — the summary counts
`converted = 2, skipped = 1`. -/
theorem batch_skip_accounting_witness :
    batchMain ["b.mat", "a.mat", "c.mat"] "dest" false fsOnlyB recScalarK =
      .ok ⟨2, 1, ["a.mat", "b.mat", "c.mat"]⟩ ∧ (2 : Nat) + 1 = 3 := by
  have h := batch_skip_accounting ["b.mat", "a.mat", "c.mat"] "dest"
    fsOnlyB recScalarK (by decide)
    (fun f hf hsk =>
      ⟨⟨[("k", NpArr.concrete [] "int64" (.ints [0]))], [("k", ⟨[], "int64"⟩)]⟩,
        rfl⟩)
  refine ⟨?_, rfl⟩
  rw [h.1]
  rfl

theorem batchLoop_processed :
    ∀ (files : List String) (destDir : String) (force : Bool)
      (fsExists : String → Bool) (records : String → List (String × MVal)),
      ∀ (c s : Nat) (p : List String) (res : BatchResult),
      batchLoop destDir force fsExists records files c s p = .ok res →
      res.processed = p ++ files := by
  intro files destDir force fsExists records
  induction files with
  | nil =>
    intro c s p res h
    have h' : Except.ok (⟨c, s, p⟩ : BatchResult) = .ok res := h
    rw [Except.ok.injEq] at h'
    rw [← h']
    simp
  | cons f rest ih =>
    intro c s p res h
    simp only [batchLoop] at h
    by_cases hs : (!force && skipCond destDir fsExists f) = true
    · rw [if_pos hs] at h
      have := ih c (s + 1) (p ++ [f]) res h
      simpa [List.append_assoc] using this
    · rw [if_neg hs] at h
      cases hcf : convert_file f (records f) with
      | error e =>
        rw [hcf] at h
        exact absurd h (by simp)
      | ok out =>
        rw [hcf] at h
        have := ih (c + 1) s (p ++ [f]) res h
        simpa [List.append_assoc] using this

/-- C8: every successful batch run visits the matched files in
lexicographically sorted order — the visit order is `sortFiles` of the
enumeration, which is sorted and a permutation of it; in particular for
any enumeration of `b.mat`, `a.mat`, `c.mat` the visit order is
`a.mat`, `b.mat`, `c.mat`. -/
theorem batch_sorted_order :
    ∀ (enumerated : List String) (destDir : String) (force : Bool)
      (fsExists : String → Bool) (records : String → List (String × MVal))
      (res : BatchResult),
      batchMain enumerated destDir force fsExists records = .ok res →
      res.processed = sortFiles enumerated ∧
      (sortFiles enumerated).Sorted (fun a b => pathLe a b = true) ∧
      (sortFiles enumerated).Perm enumerated ∧
      (enumerated.Perm ["b.mat", "a.mat", "c.mat"] →
        res.processed = ["a.mat", "b.mat", "c.mat"]) := by
  intro enumerated destDir force fsExists records res h
  have h' : (if (sortFiles enumerated).isEmpty then
      (Except.error "No files matching pattern found" :
        Except String BatchResult)
    else batchLoop destDir force fsExists records
      (sortFiles enumerated) 0 0 []) = .ok res := h
  have hproc : res.processed = sortFiles enumerated := by
    by_cases he : (sortFiles enumerated).isEmpty = true
    · rw [if_pos he] at h'
      exact absurd h' (by simp)
    · rw [if_neg he] at h'
      have := batchLoop_processed (sortFiles enumerated) destDir force
        fsExists records 0 0 [] res h'
      simpa using this
  refine ⟨hproc, sortFiles_sorted _, sortFiles_perm _, ?_⟩
  intro hperm
  have h1 : (sortFiles enumerated).Perm ["a.mat", "b.mat", "c.mat"] :=
    (sortFiles_perm _).trans (hperm.trans (by decide))
  have h2 := sortFiles_sorted enumerated
  have h3 : (["a.mat", "b.mat", "c.mat"] : List String).Sorted
      (fun a b => pathLe a b = true) := by decide
  rw [hproc]
  exact @List.eq_of_perm_of_sorted String (fun a b => pathLe a b = true)
    ⟨pathLe_antisymm⟩ _ _ h1 h2 h3

/-- Witness for C8: a batch run over the enumeration
`b.mat, a.mat, c.mat` (forced, empty destination) visits
`a.mat, b.mat, c.mat`. -/
theorem batch_sorted_order_witness :
    (⟨3, 0, ["a.mat", "b.mat", "c.mat"]⟩ : BatchResult).processed =
        sortFiles ["b.mat", "a.mat", "c.mat"] ∧
      (sortFiles ["b.mat", "a.mat", "c.mat"]).Sorted
        (fun a b => pathLe a b = true) ∧
      (sortFiles ["b.mat", "a.mat", "c.mat"]).Perm
        ["b.mat", "a.mat", "c.mat"] ∧
      (["b.mat", "a.mat", "c.mat"].Perm ["b.mat", "a.mat", "c.mat"] →
        (⟨3, 0, ["a.mat", "b.mat", "c.mat"]⟩ : BatchResult).processed =
          ["a.mat", "b.mat", "c.mat"]) :=
  batch_sorted_order ["b.mat", "a.mat", "c.mat"] "dest" true fsNone recScalarK
    ⟨3, 0, ["a.mat", "b.mat", "c.mat"]⟩ rfl
